import Mathlib

/-!
Verification development for the release-handling core (`modules/common.py`):
the resilient HTTP session wrapper, the filename classifier, the release
type filter, the release ranker and the release printer.

Modelling conventions:
* Python dictionaries holding release metadata become the `Release` and
  `Version` structures; an absent key is `none`.
* The Python list of release objects is a list of references.  We model the
  object store as a `List Release` (the heap) and a release list as a
  `List Nat` of indices into that heap, so that in-place mutation and
  identity-based aliasing are representable.
* `requests` transports are modelled as a function from the attempt number
  to the outcome of that attempt (a raised `RequestException` or a response),
  together with a function giving the `time.time()` value observed after each
  attempt.  Sleeping (rate limiting) and the default timeout option only
  affect real time, which is outside the modelled state.
* Machine floats (the `size` field) are modelled as exact rationals.
-/

attribute [local semireducible] Rat.mul Rat.add Rat.sub Rat.inv

/-- One HTTP response: the status code and the body. -/
structure Resp where
  status : Nat
  body : String
deriving DecidableEq

/-- Outcome of one transport attempt inside `session.request`: either the
underlying `requests.Session.request` call raises a `RequestException`
(`err`), or it returns a response (`ok`). -/
inductive Attempt where
  | err : Attempt
  | ok : Resp → Attempt
deriving DecidableEq

/-- Observable outcome of a `session.request` call: the returned value
(`none` models Python `None` on retry exhaustion), the number of transport
invocations performed, and the final value of `self.last_request_time`. -/
structure Outcome where
  result : Option Resp
  calls : Nat
  lastTime : Nat
deriving DecidableEq

/-- An attempt that the `while` loop retries on: a transport-level error, or
a response whose status is in the retry list. -/
def retryable (codes : List Nat) : Attempt → Prop
  | Attempt.err => True
  | Attempt.ok r => r.status ∈ codes

namespace session

/-- The retry loop of `session.request` (common.py lines 77-104), with the
remaining retry budget `fuel = MAX_RETRIES - retries` as the recursion
measure, `k` the index of the next transport invocation and `lrt` the
current `last_request_time`.  Note that `self.last_request_time` is
assigned on line 82, after `super().request` returns, so an attempt that
raises does not update it. -/
def requestGo (codes : List Nat) (transport : Nat → Attempt) (times : Nat → Nat) :
    Nat → Nat → Nat → Outcome
  | 0, k, lrt => ⟨none, k, lrt⟩
  | fuel+1, k, lrt =>
    match transport k with
    | Attempt.err => requestGo codes transport times fuel (k+1) lrt
    | Attempt.ok r =>
      if r.status ∈ codes then requestGo codes transport times fuel (k+1) (times k)
      else ⟨some r, k+1, times k⟩

/-- Model of `session.request`: run the retry loop with the full
`MAX_RETRIES` budget from attempt 0.  The rate-limit sleeps before and
between attempts, and the default timeout keyword, do not change the
modelled state. -/
def request (codes : List Nat) (maxRetries : Nat) (transport : Nat → Attempt)
    (times : Nat → Nat) (lrt0 : Nat) : Outcome :=
  requestGo codes transport times maxRetries 0 lrt0

/-- Fold describing which `time.time()` samples reach `last_request_time`:
starting before attempt `k` with `n` attempts to go, an attempt that returns
a response overwrites the value with its timestamp, while an attempt that
raises leaves it unchanged. -/
def lrtTrace (transport : Nat → Attempt) (times : Nat → Nat) : Nat → Nat → Nat → Nat
  | _, 0, lrt => lrt
  | k, n+1, lrt =>
      lrtTrace transport times (k+1) n
        (match transport k with | Attempt.err => lrt | Attempt.ok _ => times k)

end session

/-- Boolean check that `p` is a prefix of `s` (character lists). -/
def prefCheck : List Char → List Char → Bool
  | [], _ => true
  | _ :: _, [] => false
  | a :: ps, b :: ss => a == b && prefCheck ps ss

/-- Boolean check that `p` is a suffix of `s`, via reversal. -/
def sufCheck (p s : List Char) : Bool := prefCheck p.reverse s.reverse

/-- Boolean check that `p` occurs as a contiguous subsequence of `s`; models
an unanchored `regex.search`. -/
def containsSeq (p : List Char) : List Char → Bool
  | [] => p.isEmpty
  | c :: t => prefCheck p (c :: t) || containsSeq p t

namespace Match

/-- The alternatives of `match.video_formats` (common.py lines 135-136), in
source order. -/
def video_formats : List String :=
  ["YUV", "WMV", "WEBM", "VOB", "VIV", "SVI", "ROQ", "RMVB", "RM", "OGV", "OGG",
   "NSV", "MXF", "MTS", "M2TS", "TS", "MPG", "MPEG", "M2V", "MP2", "MPE", "MPV",
   "MP4", "M4P", "M4V", "MOV", "QT", "MNG", "MKV", "FLV", "DRC", "AVI", "ASF", "AMV"]

/-- Per-character case folding performed by the regex engine under the `I`
flag (the `regex` module in its default, `re`-compatible mode folds each
character by its Unicode simple lowercase mapping plus a fixed table of
extra one-character equivalences): the Unicode simple lowercase mapping
sends `A`-`Z`, the Kelvin sign `U+212A` and the dotted capital `U+0130`
into ASCII, and the extra equivalence classes identify the dotless
`U+0131` with `i` and the long s `U+017F` with `s`.  No other character
folds into the ASCII alphabet of the fixed patterns, so every remaining
character is folded with `Char.toLower`, which leaves non-ASCII characters
unchanged and therefore distinct from every ASCII pattern character. -/
def foldChar (c : Char) : Char :=
  if c = '\u212A' then 'k'
  else if c = '\u0130' then 'i'
  else if c = '\u0131' then 'i'
  else if c = '\u017F' then 's'
  else c.toLower

/-- Case folding of a whole string for `regex.I` matching: both the pattern
and the subject are folded character by character before comparison. -/
def foldStr (s : List Char) : List Char := s.map foldChar

/-- Model of `regex.search(match.video_formats, filename)` as a boolean: the
pattern `(\.)(EXT1|...|EXTn)$` matches somewhere iff a dot followed by one
of the alternatives, compared under case folding, ends at a position the
`$` anchor accepts.  In Python `$` matches at the end of the string and
also just before a newline that is the last character, so the name matches
iff it ends with the folded pattern, or with the folded pattern followed by
one final newline. -/
def matchVideoFormats (s : List Char) : Bool :=
  video_formats.any (fun ext =>
    sufCheck (foldStr ('.' :: ext.toList)) (foldStr s)
      || sufCheck (foldStr ('.' :: ext.toList) ++ ['\n']) (foldStr s))

/-- Model of `regex.search(match.sample_formats, filename)`: the pattern
`(sample)` with `regex.I` matches iff the folded name contains the folded
letters of the word sample contiguously (the pattern is unanchored, so no
`$` case arises). -/
def matchSample (s : List Char) : Bool :=
  containsSeq (foldStr ("sample".toList)) (foldStr s)

/-- Model of `match.video` (common.py lines 185-186). -/
def video (filename : List Char) : Bool :=
  matchVideoFormats filename && !matchSample filename

end Match

/-- One alternate encoding of a release (a `versions` entry), with the fields
the filter consults. -/
structure Version where
  seasons : List Nat
  episodes : Nat
  videos : Nat
deriving DecidableEq

/-- One release dictionary.  Optional fields model keys that may be absent
from the Python dict (`type` and `printsize` are only added later). -/
structure Release where
  title : String
  resolution : Nat
  size : ℚ
  languages : List String
  cached : List String
  seeders : Nat
  source : String
  seasons : List Nat
  episodes : Nat
  videos : Nat
  versions : List Version
  type : Option String
  printsize : Option String
deriving DecidableEq

/-- Placeholder release used as the out-of-range default when dereferencing
a heap index; the filter theorems assume all indices are in range. -/
def dRelease : Release :=
  ⟨"", 0, 0, [], [], 0, "", [], 0, 0, [], none, none⟩

/-- Dereference a heap index. -/
def hGet (hp : List Release) (i : Nat) : Release := hp.getD i dRelease

/-- Python `versions.remove(x)`: delete the first element that compares
equal to `x`.  (Python raises `ValueError` when no element matches; in
`type_filter` the removed element is always present, so that case is
unreachable and modelled as a no-op.) -/
def removeFirst (x : Version) : List Version → List Version
  | [] => []
  | v :: rest => if v = x then rest else v :: removeFirst x rest

/-- The inner loop `for version in release["versions"][:]` of `type_filter`:
iterate over a snapshot of the version list, removing from the current list
each version satisfying the drop condition. -/
def removeVersionsPass (dropV : Version → Bool) : List Version → List Version → List Version
  | [], cur => cur
  | v :: rest, cur =>
      removeVersionsPass dropV rest (if dropV v then removeFirst v cur else cur)

/-- Python `list.remove(release)` on a list of references: delete the first
index whose dereferenced value compares equal to the value at index `i`.
(The `ValueError` case is unreachable in `type_filter`, as for
`removeFirst`.) -/
def removeRef (hp : List Release) (cur : List Nat) (i : Nat) : List Nat :=
  match cur with
  | [] => []
  | j :: rest => if hGet hp j = hGet hp i then rest else j :: removeRef hp rest i

/-- Filter a release according to the drop condition on its versions, as the
body of the keep branch does: replace the version list by the result of the
snapshot-and-remove pass. -/
def updVersions (dropV : Version → Bool) (r : Release) : Release :=
  { r with versions := removeVersionsPass dropV r.versions r.versions }

/-- The outer loop `for release in list[:]` shared by the movie branch, the
multi-season branch and the full-season branch of `type_filter`: iterate over
the snapshot `snap` of the initial list; a release satisfying `dropR` is
removed from the current list, otherwise its version list is filtered in
place. -/
def filterPass (dropR : Release → Bool) (dropV : Version → Bool) :
    List Nat → List Release × List Nat → List Release × List Nat
  | [], st => st
  | i :: rest, (hp, cur) =>
      if dropR (hGet hp i) then
        filterPass dropR dropV rest (hp, removeRef hp cur i)
      else
        filterPass dropR dropV rest (hp.set i (updVersions dropV (hGet hp i)), cur)

/-- The tagging loop `for release in list: release["type"] = tag`. -/
def tagAll (tag : String) (hp : List Release) : List Nat → List Release
  | [] => hp
  | j :: rest => tagAll tag (hp.set j { hGet hp j with type := some tag }) rest

/-- The outer loop of the single-episode branch of `type_filter` (common.py
lines 282-291).  It differs from `filterPass` in that the tagging loop over
the current list is nested inside the per-release iteration: after each kept
release is processed, every release currently in the list, including ones
that will fail the test later, gets `type := "show"`. -/
def filterPass4 (dropR : Release → Bool) (dropV : Version → Bool) :
    List Nat → List Release × List Nat → List Release × List Nat
  | [], st => st
  | i :: rest, (hp, cur) =>
      if dropR (hGet hp i) then
        filterPass4 dropR dropV rest (hp, removeRef hp cur i)
      else
        filterPass4 dropR dropV rest
          (tagAll "show" (hp.set i (updVersions dropV (hGet hp i))) cur, cur)

/-- Python truthiness test `not e` for the episode argument: `None` and `0`
are falsy. -/
def isFalsyE : Option Nat → Bool
  | none => true
  | some n => n == 0

/-- Multi-season drop condition for releases (common.py line 262):
`len(seasons - set(release["seasons"])) > len(s) / 2 or episodes <= 1`,
with the Python float division modelled exactly in `ℚ`. -/
def dropRMulti (s : List Nat) (r : Release) : Bool :=
  decide ((((s.toFinset \ r.seasons.toFinset).card : ℚ)) > (s.length : ℚ) / 2)
    || decide (r.episodes ≤ 1)

/-- Multi-season drop condition for versions (common.py line 266). -/
def dropVMulti (s : List Nat) (v : Version) : Bool :=
  decide ((((s.toFinset \ v.seasons.toFinset).card : ℚ)) > (s.length : ℚ) / 2)
    || decide (v.episodes ≤ 1)

/-- Full-season drop condition for releases (common.py line 273):
`seasons - set(release["seasons"]) or episodes <= 1` (a nonempty set is
truthy). -/
def dropRSingle (s : List Nat) (r : Release) : Bool :=
  decide (s.toFinset \ r.seasons.toFinset ≠ ∅) || decide (r.episodes ≤ 1)

/-- Full-season drop condition for versions (common.py line 277). -/
def dropVSingle (s : List Nat) (v : Version) : Bool :=
  decide (s.toFinset \ v.seasons.toFinset ≠ ∅) || decide (v.episodes ≤ 1)

/-- Single-episode drop condition for releases (common.py line 283):
`seasons - set(release["seasons"]) or not episodes == 1`. -/
def dropRSE (s : List Nat) (r : Release) : Bool :=
  decide (s.toFinset \ r.seasons.toFinset ≠ ∅) || decide (r.episodes ≠ 1)

/-- Single-episode drop condition for versions (common.py line 287). -/
def dropVSE (s : List Nat) (v : Version) : Bool :=
  decide (s.toFinset \ v.seasons.toFinset ≠ ∅) || decide (v.episodes ≠ 1)

namespace releases

/-- Model of `releases.type_filter(list, type, s, e)` (common.py lines
247-291) on the heap-and-references representation.  Returns the final heap
together with the final reference list. -/
def type_filter (hp : List Release) (l : List Nat) (ty : String) (s : List Nat)
    (e : Option Nat) : List Release × List Nat :=
  if ty == "movie" then
    let st := filterPass (fun r => r.videos == 0) (fun v => v.videos == 0) l (hp, l)
    (tagAll "movie" st.1 st.2, st.2)
  else if s.length > 1 then
    let st := filterPass (dropRMulti s) (dropVMulti s) l (hp, l)
    (tagAll "show" st.1 st.2, st.2)
  else if isFalsyE e then
    let st := filterPass (dropRSingle s) (dropVSingle s) l (hp, l)
    (tagAll "show" st.1 st.2, st.2)
  else
    filterPass4 (dropRSE s) (dropVSE s) l (hp, l)

end releases

/-- Insert `x` into `l` before the first element with a strictly smaller
key: the insertion step of a stable sort by `k` descending. -/
def insertDesc (k : Release → Int) (x : Release) : List Release → List Release
  | [] => [x]
  | y :: ys => if k x < k y then y :: insertDesc k x ys else x :: y :: ys

/-- Stable descending sort by key, modelling Python
`list.sort(key=k, reverse=True)`.  Python guarantees a stable sort; any
stable sort yields the same list, so insertion sort is used. -/
def ssortDesc (k : Release → Int) (l : List Release) : List Release :=
  l.foldr (insertDesc k) []

/-- A source adapter as `releases.sort` sees it: the `FILTERS` boolean
expressions and the `RULES` value expressions, each already interpreted as a
function of the release it is evaluated against. -/
structure Server where
  FILTERS : List (Release → Bool)
  RULES : List (Release → Int)

/-- Keys against which the output of `releases.sort` is ordered
lexicographically: the rules from last to first, then the episode count. -/
def ruleKeys (rules : List (Release → Int)) (r : Release) : List Int :=
  (rules.reverse.map (fun f => f r)) ++ [(r.episodes : Int)]

/-- Lexicographic strictly-descending-or-equal comparison on key lists. -/
def lexGe : List Int → List Int → Prop
  | x :: xs, y :: ys => x > y ∨ (x = y ∧ lexGe xs ys)
  | _, _ => True

namespace releases

/-- Model of `releases.sort(server, list)` (common.py lines 293-299): apply
each filter in order, sort by episode count descending, then stably re-sort
by each rule in order. -/
def sort (server : Server) (l : List Release) : List Release :=
  let l1 := server.FILTERS.foldl (fun acc f => acc.filter f) l
  let l2 := ssortDesc (fun r => (r.episodes : Int)) l1
  server.RULES.foldl (fun acc rule => ssortDesc rule acc) l2

end releases

/-- Python `"/".join(xs)`. -/
def joinSlash (l : List String) : String := String.intercalate "/" l

/-- A run of `n` spaces, modelling Python `" " * n` (with `n` already
truncated at zero by the natural subtraction at the call sites, matching
Python where a negative repeat count yields the empty string). -/
def spaces (n : Nat) : String := String.mk (List.replicate n ' ')

/-- Right-pad `s` with spaces to width `w`, modelling
`s + " " * (w - len(s))`. -/
def padTo (s : String) (w : Nat) : String := s ++ spaces (w - s.length)

/-- Round half to even, the rounding mode of Python `round`. -/
def roundHalfEven (x : ℚ) : Int :=
  let f : Int := x.floor
  let frac : ℚ := x - f
  if frac < 1/2 then f
  else if 1/2 < frac then f + 1
  else if f % 2 = 0 then f else f + 1

/-- Model of Python `str(round(size, 2))` with the size as an exact rational
in place of an IEEE float: round half to even at two decimals and render the
way Python renders such a float (sign, integer part, a dot, then the two
decimal digits with a trailing zero dropped, keeping at least one digit). -/
def printSizeStr (q : ℚ) : String :=
  let c : Int := roundHalfEven (q * 100)
  let n : Nat := c.natAbs
  let ip : Nat := n / 100
  let d : Nat := n % 100
  let dec : String :=
    if d % 10 == 0 then toString (d / 10)
    else if d < 10 then "0" ++ toString d
    else toString d
  (if c < 0 then "-" else "") ++ toString ip ++ "." ++ dec

/-- The mutation `release["printsize"] = str(round(release["size"], 2))`
performed on every release by the first loop of `releases.print`. -/
def withPrintsize (r : Release) : Release :=
  { r with printsize := some (printSizeStr r.size) }

/-- Maximum of `f` over the list, starting at 0; models the running-maximum
computations of the first loop of `releases.print`. -/
def longestBy (f : Release → Nat) (l : List Release) : Nat :=
  l.foldl (fun m r => max m (f r)) 0

/-- Maximum width of the rendered one-based index labels. -/
def longestIndex (n : Nat) : Nat :=
  (List.range n).foldl (fun m i => max m (toString (i + 1)).length) 0

/-- One rendered line of `releases.print` (common.py lines 232-244), given
the computed column widths, the zero-based index and the (already mutated)
release. -/
def renderLine (lonIndex lonRes lonLangs lonTitle lonSize lonCached lonSeeders : Nat)
    (idx : Nat) (r : Release) : String :=
  (toString (idx + 1) ++ ") " ++ spaces (lonIndex - (toString (idx + 1)).length))
  ++ ("resolution: " ++ padTo (toString r.resolution) lonRes)
  ++ (" | languages: " ++ padTo (joinSlash r.languages) lonLangs)
  ++ (" | title: " ++ padTo r.title lonTitle)
  ++ (" | size: " ++ padTo (r.printsize.getD "") lonSize)
  ++ (" | cached: " ++ padTo (joinSlash r.cached) lonCached)
  ++ (" | seeders: " ++ padTo (toString r.seeders) lonSeeders)
  ++ (" | source: " ++ r.source)

namespace releases

/-- Model of `releases.print(list)` (common.py lines 207-245): the first
loop stores `printsize` on every release and computes the column widths, the
second renders one line per release.  Returns the rendered lines together
with the final state of the releases, which the Python code mutates in
place. -/
def print (l : List Release) : List String × List Release :=
  let u := l.map withPrintsize
  let lonCached := longestBy (fun r => (joinSlash r.cached).length) u
  let lonTitle := longestBy (fun r => r.title.length) u
  let lonRes := longestBy (fun r => (toString r.resolution).length) u
  let lonSize := longestBy (fun r => (r.printsize.getD "").length) u
  let lonLangs := longestBy (fun r => (joinSlash r.languages).length) u
  let lonSeeders := longestBy (fun r => (toString r.seeders).length) u
  let lonIndex := longestIndex u.length
  (u.enum.map (fun p =>
      renderLine lonIndex lonRes lonLangs lonTitle lonSize lonCached lonSeeders p.1 p.2),
   u)

end releases

/-- Ordering produced by one stable descending sort by key `k` on top of a
list already ordered by `P`: a strictly larger key comes first, and ties
keep the pre-existing order. -/
def QbyKey (k : Release → Int) (P : Release → Release → Prop) (a b : Release) : Prop :=
  k a > k b ∨ (k a = k b ∧ P a b)

/-- Transport that fails twice, then succeeds with a 200 response. -/
def mockTransport : Nat → Attempt :=
  fun k => if k ≤ 1 then Attempt.err else Attempt.ok ⟨200, "success"⟩

/-- Release used as the concrete input of the printer counterexamples. -/
def demoRelease : Release :=
  ⟨"A", 1080, 3/2, ["EN"], ["RD"], 12, "x", [3], 1, 1, [], none, none⟩

/-- Version of the kept release that survives the multi-season witness. -/
def verMultiKeep : Version := ⟨[1, 2], 5, 1⟩

/-- Version dropped from the kept release by the multi-season witness. -/
def verMultiDrop : Version := ⟨[1], 1, 1⟩

/-- Release kept by the multi-season witness: seasons `{1,2}` of the four
requested, `episodes = 5`. -/
def relMultiKeep : Release :=
  ⟨"K", 0, 0, [], [], 0, "", [1, 2], 5, 1, [verMultiKeep, verMultiDrop], none, none⟩

/-- Release dropped by the multi-season witness: seasons `{1}` of the four
requested, `episodes = 5`. -/
def relMultiDrop : Release :=
  ⟨"D", 0, 0, [], [], 0, "", [1], 5, 1, [], none, none⟩

/-- Release used in the C2 counterexample: seasons `{1,2}` (an element
outside the requested `{1}`), one episode. -/
def relC2 : Release := ⟨"C", 0, 0, [], [], 0, "", [1, 2], 1, 1, [], none, none⟩

/-- Version kept by the single-episode witness. -/
def verSEKeep : Version := ⟨[3], 1, 1⟩

/-- Version dropped by the single-episode witness (no seasons). -/
def verSEDrop : Version := ⟨[], 1, 1⟩

/-- Release kept by the single-episode witness: season 3 present, one
episode. -/
def relSEKeep : Release :=
  ⟨"K", 0, 0, [], [], 0, "", [3], 1, 1, [verSEKeep, verSEDrop], none, none⟩

/-- Release dropped by the single-episode witness: requested season 3
absent. -/
def relSEDrop : Release :=
  ⟨"D", 0, 0, [], [], 0, "", [], 1, 1, [], none, none⟩

/-- Release processed first and kept by the C10 input. -/
def relTagA : Release := ⟨"A", 0, 0, [], [], 0, "", [3], 1, 1, [], none, none⟩

/-- Release processed second and removed by the C10 input. -/
def relTagB : Release := ⟨"B", 0, 0, [], [], 0, "", [], 1, 1, [], none, none⟩

theorem requestGo_exhaust (codes : List Nat) (transport : Nat → Attempt) (times : Nat → Nat)
    (fuel : Nat) : ∀ (k lrt : Nat),
    (∀ j, k ≤ j → j < k + fuel → retryable codes (transport j)) →
    (session.requestGo codes transport times fuel k lrt).result = none ∧
    (session.requestGo codes transport times fuel k lrt).calls = k + fuel := by
  induction fuel with
  | zero => intro k lrt _; exact ⟨rfl, rfl⟩
  | succ fuel ih =>
    intro k lrt h
    have hk : retryable codes (transport k) := h k (Nat.le_refl k) (by omega)
    have hrec : ∀ lrt2, (session.requestGo codes transport times fuel (k+1) lrt2).result = none ∧
        (session.requestGo codes transport times fuel (k+1) lrt2).calls = (k+1) + fuel :=
      fun lrt2 => ih (k+1) lrt2 (fun j h1 h2 => h j (by omega) (by omega))
    cases htr : transport k with
    | err =>
      refine ⟨by simpa [session.requestGo, htr] using (hrec lrt).1, ?_⟩
      have h2 := (hrec lrt).2
      simp only [session.requestGo, htr]
      omega
    | ok r =>
      have hmem : r.status ∈ codes := by rw [htr] at hk; exact hk
      refine ⟨by simpa [session.requestGo, htr, hmem] using (hrec (times k)).1, ?_⟩
      have h2 := (hrec (times k)).2
      simp only [session.requestGo, htr, if_pos hmem]
      omega

/-- C1: if every one of the `maxRetries` attempts either raises a
transport-level error or returns a response with a retryable status, then
`session.request` returns the explicit no-response value `None` after
exactly `maxRetries` transport invocations.  The model is a total function:
the `except` clause of the loop converts every transport error into a retry,
so no exception reaches the caller. -/
theorem c1_retry_exhaustion (codes : List Nat) (maxRetries : Nat) (transport : Nat → Attempt)
    (times : Nat → Nat) (lrt0 : Nat)
    (h : ∀ k, k < maxRetries → retryable codes (transport k)) :
    (session.request codes maxRetries transport times lrt0).result = none ∧
    (session.request codes maxRetries transport times lrt0).calls = maxRetries := by
  have := requestGo_exhaust codes transport times maxRetries 0 lrt0
    (fun j _ hj => h j (by omega))
  simpa [session.request] using this

/-- C1 witness: a transport that always fails, with the default retry codes
and `maxRetries = 3`. -/
theorem c1_witness :
    (∀ k, k < 3 → retryable [429, 503] ((fun _ => Attempt.err) k)) ∧
    (session.request [429, 503] 3 (fun _ => Attempt.err) (fun k => k) 0).result = none ∧
    (session.request [429, 503] 3 (fun _ => Attempt.err) (fun k => k) 0).calls = 3 :=
  ⟨fun _ _ => trivial,
   c1_retry_exhaustion [429, 503] 3 (fun _ => Attempt.err) (fun k => k) 0 (fun _ _ => trivial)⟩

theorem requestGo_first_ok (codes : List Nat) (transport : Nat → Attempt) (times : Nat → Nat)
    (r : Resp) (fuel : Nat) : ∀ (k lrt j : Nat), k ≤ j → j < k + fuel →
    (∀ i, k ≤ i → i < j → retryable codes (transport i)) →
    transport j = Attempt.ok r → r.status ∉ codes →
    (session.requestGo codes transport times fuel k lrt).result = some r ∧
    (session.requestGo codes transport times fuel k lrt).calls = j + 1 := by
  induction fuel with
  | zero => intro k lrt j h1 h2 _ _ _; omega
  | succ fuel ih =>
    intro k lrt j h1 h2 hpre hok hnr
    rcases Nat.eq_or_lt_of_le h1 with heq | hlt
    · subst heq
      constructor <;> simp [session.requestGo, hok, hnr]
    · have hk : retryable codes (transport k) := hpre k (Nat.le_refl k) hlt
      cases htr : transport k with
      | err =>
        have hres := ih (k+1) lrt j hlt (by omega)
          (fun i hi1 hi2 => hpre i (by omega) hi2) hok hnr
        exact ⟨by simpa [session.requestGo, htr] using hres.1,
               by simpa [session.requestGo, htr] using hres.2⟩
      | ok r2 =>
        have hmem : r2.status ∈ codes := by rw [htr] at hk; exact hk
        have hres := ih (k+1) (times k) j hlt (by omega)
          (fun i hi1 hi2 => hpre i (by omega) hi2) hok hnr
        exact ⟨by simpa [session.requestGo, htr, hmem] using hres.1,
               by simpa [session.requestGo, htr, hmem] using hres.2⟩

/-- C4: the first attempt in a `session.request` call whose response status
is not retryable makes the call return that response at once: if attempts
before `j` are all retryable and attempt `j` yields a response with a
non-retryable status, the response of attempt `j` is returned and the
transport is invoked exactly `j + 1` times. -/
theorem c4_first_nonretryable (codes : List Nat) (maxRetries : Nat)
    (transport : Nat → Attempt) (times : Nat → Nat) (lrt0 : Nat) (j : Nat) (r : Resp)
    (hj : j < maxRetries)
    (hpre : ∀ i, i < j → retryable codes (transport i))
    (hok : transport j = Attempt.ok r)
    (hnr : r.status ∉ codes) :
    (session.request codes maxRetries transport times lrt0).result = some r ∧
    (session.request codes maxRetries transport times lrt0).calls = j + 1 := by
  have := requestGo_first_ok codes transport times r maxRetries 0 lrt0 j
    (by omega) (by omega) (fun i _ hi => hpre i hi) hok hnr
  simpa [session.request] using this

/-- C4 witness: the mock transport that fails twice then succeeds; a call
with `maxRetries = 3` returns the success response and the transport was
invoked exactly 3 times. -/
theorem c4_witness :
    (2 < 3 ∧ mockTransport 2 = Attempt.ok ⟨200, "success"⟩ ∧ (200 : Nat) ∉ [429, 503]) ∧
    (session.request [429, 503] 3 mockTransport (fun k => k) 0).result = some ⟨200, "success"⟩ ∧
    (session.request [429, 503] 3 mockTransport (fun k => k) 0).calls = 3 :=
  ⟨⟨by decide, by decide, by decide⟩,
   c4_first_nonretryable [429, 503] 3 mockTransport (fun k => k) 0 2 ⟨200, "success"⟩
     (by decide)
     (by
       intro i hi
       have h1 : i ≤ 1 := by omega
       simp [mockTransport, h1, retryable])
     (by decide) (by decide)⟩

/-- C5 counterexample: with `maxRetries = 1` and a transport whose only
attempt raises a connection error at time 7, the call completes one
attempt, yet `last_request_time` keeps its initial value 0 instead of being
updated to 7: the assignment on line 82 sits after the transport call, so a
raising attempt never updates the timestamp. -/
theorem c5_counterexample :
    (session.request [429, 503] 1 (fun _ => Attempt.err) (fun _ => 7) 0).calls = 1 ∧
    (session.request [429, 503] 1 (fun _ => Attempt.err) (fun _ => 7) 0).lastTime = 0 ∧
    (session.request [429, 503] 1 (fun _ => Attempt.err) (fun _ => 7) 0).lastTime ≠ 7 :=
  ⟨rfl, rfl, by decide⟩

theorem requestGo_calls_ge (codes : List Nat) (transport : Nat → Attempt) (times : Nat → Nat)
    (fuel : Nat) : ∀ (k lrt : Nat),
    k ≤ (session.requestGo codes transport times fuel k lrt).calls := by
  induction fuel with
  | zero => intro k lrt; exact Nat.le_refl k
  | succ fuel ih =>
    intro k lrt
    cases htr : transport k with
    | err =>
      have := ih (k+1) lrt
      simp only [session.requestGo, htr]
      omega
    | ok r =>
      by_cases hmem : r.status ∈ codes
      · have := ih (k+1) (times k)
        simp only [session.requestGo, htr, if_pos hmem]
        omega
      · simp only [session.requestGo, htr, if_neg hmem]
        omega

theorem requestGo_lastTime (codes : List Nat) (transport : Nat → Attempt) (times : Nat → Nat)
    (fuel : Nat) : ∀ (k lrt : Nat),
    (session.requestGo codes transport times fuel k lrt).lastTime
      = session.lrtTrace transport times k
          ((session.requestGo codes transport times fuel k lrt).calls - k) lrt := by
  induction fuel with
  | zero => intro k lrt; simp [session.requestGo, session.lrtTrace]
  | succ fuel ih =>
    intro k lrt
    cases htr : transport k with
    | err =>
      have hge := requestGo_calls_ge codes transport times fuel (k+1) lrt
      have heq := ih (k+1) lrt
      simp only [session.requestGo, htr]
      have hstep : (session.requestGo codes transport times fuel (k+1) lrt).calls - k
          = ((session.requestGo codes transport times fuel (k+1) lrt).calls - (k+1)) + 1 := by
        omega
      rw [hstep, session.lrtTrace, htr]
      exact heq
    | ok r =>
      by_cases hmem : r.status ∈ codes
      · have hge := requestGo_calls_ge codes transport times fuel (k+1) (times k)
        have heq := ih (k+1) (times k)
        simp only [session.requestGo, htr, if_pos hmem]
        have hstep : (session.requestGo codes transport times fuel (k+1) (times k)).calls - k
            = ((session.requestGo codes transport times fuel (k+1) (times k)).calls - (k+1)) + 1 := by
          omega
        rw [hstep, session.lrtTrace, htr]
        exact heq
      · simp only [session.requestGo, htr, if_neg hmem]
        have h1 : k + 1 - k = 1 := by omega
        rw [h1, session.lrtTrace, htr, session.lrtTrace]

/-- C5 amended: after every attempt that produces an HTTP response, whether
its status is successful or retryable, `last_request_time` is updated to
that attempt timestamp; an attempt that fails at the transport level
(connection error, timeout) raises before the assignment and leaves
`last_request_time` unchanged.  The final value is therefore the fold
`lrtTrace` of the response-producing attempts over the performed calls. -/
theorem c5_amended (codes : List Nat) (maxRetries : Nat) (transport : Nat → Attempt)
    (times : Nat → Nat) (lrt0 : Nat) :
    (session.request codes maxRetries transport times lrt0).lastTime
      = session.lrtTrace transport times 0
          ((session.request codes maxRetries transport times lrt0).calls) lrt0 := by
  have := requestGo_lastTime codes transport times maxRetries 0 lrt0
  simpa [session.request] using this

theorem prefCheck_iff (p : List Char) : ∀ s, prefCheck p s = true ↔ ∃ t, s = p ++ t := by
  induction p with
  | nil => intro s; simp [prefCheck]
  | cons a ps ih =>
    intro s
    cases s with
    | nil => simp [prefCheck]
    | cons b ss =>
      simp only [prefCheck, Bool.and_eq_true, beq_iff_eq, ih ss, List.cons_append,
        List.cons.injEq]
      constructor
      · rintro ⟨hab, t, ht⟩; exact ⟨t, hab.symm, ht⟩
      · rintro ⟨t, hba, ht⟩; exact ⟨hba.symm, t, ht⟩

theorem sufCheck_iff (p s : List Char) : sufCheck p s = true ↔ ∃ t, s = t ++ p := by
  rw [sufCheck, prefCheck_iff]
  constructor
  · rintro ⟨t, ht⟩
    refine ⟨t.reverse, ?_⟩
    have := congrArg List.reverse ht
    simpa using this
  · rintro ⟨t, ht⟩
    exact ⟨t.reverse, by simp [ht]⟩

theorem containsSeq_iff (p : List Char) : ∀ s, containsSeq p s = true ↔ ∃ t u, s = t ++ p ++ u := by
  intro s
  induction s with
  | nil =>
    simp only [containsSeq, List.isEmpty_iff]
    constructor
    · rintro rfl; exact ⟨[], [], rfl⟩
    · rintro ⟨t, u, ht⟩
      rcases List.append_eq_nil.mp (List.append_eq_nil.mp ht.symm).1 with ⟨-, h2⟩
      exact h2
  | cons c cs ih =>
    simp only [containsSeq, Bool.or_eq_true, prefCheck_iff, ih]
    constructor
    · rintro (⟨t, ht⟩ | ⟨t, u, ht⟩)
      · exact ⟨[], t, by simp [ht]⟩
      · exact ⟨c :: t, u, by simp [ht]⟩
    · rintro ⟨t, u, ht⟩
      cases t with
      | nil => exact Or.inl ⟨u, by simpa using ht⟩
      | cons t0 ts =>
        right
        refine ⟨ts, u, ?_⟩
        have := ht
        simp only [List.cons_append, List.cons.injEq] at this
        exact this.2

/-- C7 counterexample: the `$` anchor of the compiled pattern also matches
just before a newline that ends the string, so on the name `a.mkv` followed
by a newline `match.video` returns true, although the name does not end
with any of the fixed extensions; the claimed equivalence forces false
there. -/
theorem c7_counterexample :
    Match.video ("a.mkv\n".toList) = true ∧
    (∀ ext ∈ Match.video_formats,
      ¬ ∃ t, Match.foldStr ("a.mkv\n".toList) = t ++ Match.foldStr ('.' :: ext.toList)) := by
  refine ⟨by decide, ?_⟩
  have hall : Match.video_formats.all (fun ext =>
      !sufCheck (Match.foldStr ('.' :: ext.toList)) (Match.foldStr ("a.mkv\n".toList))) = true := by
    decide
  intro ext hext hex
  have h2 := List.all_eq_true.mp hall ext hext
  rw [(sufCheck_iff _ _).mpr hex] at h2
  exact absurd h2 (by decide)

/-- C7 amended: `match.video` accepts a filename iff, under the case
folding the regex engine applies for the `I` flag, the name ends with a dot
followed by one of the fixed container extensions either at the very end or
just before a single final newline (both positions accepted by the `$`
anchor), and the folded name does not contain the letters of the word
sample; inserting that word anywhere in a name always makes the result
false. -/
theorem c7_amended :
    (∀ s : List Char, Match.video s = true ↔
      ((∃ ext ∈ Match.video_formats,
          (∃ t, Match.foldStr s = t ++ Match.foldStr ('.' :: ext.toList)) ∨
          (∃ t, Match.foldStr s = t ++ (Match.foldStr ('.' :: ext.toList) ++ ['\n']))) ∧
       ¬ ∃ t u, Match.foldStr s = t ++ "sample".toList ++ u)) ∧
    (∀ u v : List Char, Match.video (u ++ "sample".toList ++ v) = false) := by
  have hsample : Match.foldStr ("sample".toList) = "sample".toList := by decide
  constructor
  · intro s
    have hiff : Match.matchSample s = true ↔ ∃ t u, Match.foldStr s = t ++ "sample".toList ++ u := by
      rw [Match.matchSample, hsample]
      exact containsSeq_iff _ _
    constructor
    · intro h
      rw [Match.video, Bool.and_eq_true] at h
      obtain ⟨h1, h2⟩ := h
      refine ⟨?_, ?_⟩
      · rw [Match.matchVideoFormats, List.any_eq_true] at h1
        obtain ⟨ext, hext, hor⟩ := h1
        rw [Bool.or_eq_true, sufCheck_iff, sufCheck_iff] at hor
        exact ⟨ext, hext, hor⟩
      · intro hex
        rw [hiff.mpr hex] at h2
        exact absurd h2 (by decide)
    · rintro ⟨⟨ext, hext, hor⟩, h2⟩
      rw [Match.video, Bool.and_eq_true]
      refine ⟨?_, ?_⟩
      · rw [Match.matchVideoFormats, List.any_eq_true]
        refine ⟨ext, hext, ?_⟩
        rw [Bool.or_eq_true, sufCheck_iff, sufCheck_iff]
        exact hor
      · have hfalse : Match.matchSample s = false := by
          cases hb : Match.matchSample s
          · rfl
          · exact absurd (hiff.mp hb) h2
        rw [hfalse]
        rfl
  · intro u v
    have hmatch : Match.matchSample (u ++ "sample".toList ++ v) = true := by
      rw [Match.matchSample, hsample, containsSeq_iff]
      refine ⟨Match.foldStr u, Match.foldStr v, ?_⟩
      rw [show Match.foldStr (u ++ "sample".toList ++ v)
            = Match.foldStr u ++ Match.foldStr ("sample".toList) ++ Match.foldStr v by
          simp [Match.foldStr]]
      rw [hsample]
    rw [Match.video, hmatch]
    simp

theorem spaces_length (n : Nat) : (spaces n).length = n := by
  rw [spaces]
  exact (String.length_mk _).trans (List.length_replicate _ _)

theorem padTo_length (s : String) (w : Nat) (h : s.length ≤ w) : (padTo s w).length = w := by
  rw [padTo, String.length_append, spaces_length]
  omega

theorem le_foldl_max (f : Release → Nat) :
    ∀ (l : List Release) (a : Nat), a ≤ l.foldl (fun m r => max m (f r)) a := by
  intro l
  induction l with
  | nil => intro a; exact Nat.le_refl a
  | cons x t ih =>
    intro a
    exact Nat.le_trans (Nat.le_max_left a (f x)) (ih (max a (f x)))

theorem mem_le_foldl_max (f : Release → Nat) :
    ∀ (l : List Release) (a : Nat) (r : Release), r ∈ l →
      f r ≤ l.foldl (fun m r => max m (f r)) a := by
  intro l
  induction l with
  | nil => intro a r hr; exact absurd hr (List.not_mem_nil r)
  | cons x t ih =>
    intro a r hr
    rcases List.mem_cons.mp hr with rfl | hmem
    · exact Nat.le_trans (Nat.le_max_right a (f r)) (le_foldl_max f t _)
    · exact ih _ r hmem

theorem mem_le_longestBy (f : Release → Nat) (l : List Release) (r : Release) (hr : r ∈ l) :
    f r ≤ longestBy f l :=
  mem_le_foldl_max f l 0 r hr

theorem print_snd (l : List Release) : (releases.print l).2 = l.map withPrintsize := rfl

/-- C8 counterexample: `releases.print` is not a pure presentation step: on
a release without a `printsize` field, the call stores the rendered rounded
size under the `printsize` key of the release itself, so a field is added to
the mapping. -/
theorem c8_counterexample :
    demoRelease.printsize = none ∧
    ((releases.print [demoRelease]).2.getD 0 dRelease).printsize = some "1.5" :=
  ⟨rfl, by decide⟩

/-- C8 amended: `releases.print` constructs the rendered lines and leaves
every release field unchanged except `printsize`, which it sets on every
release to the rendered two-decimal rounding of `size`. -/
theorem c8_amended (l : List Release) :
    (releases.print l).2.map Release.title = l.map Release.title ∧
    (releases.print l).2.map Release.resolution = l.map Release.resolution ∧
    (releases.print l).2.map Release.size = l.map Release.size ∧
    (releases.print l).2.map Release.languages = l.map Release.languages ∧
    (releases.print l).2.map Release.cached = l.map Release.cached ∧
    (releases.print l).2.map Release.seeders = l.map Release.seeders ∧
    (releases.print l).2.map Release.source = l.map Release.source ∧
    (releases.print l).2.map Release.seasons = l.map Release.seasons ∧
    (releases.print l).2.map Release.episodes = l.map Release.episodes ∧
    (releases.print l).2.map Release.videos = l.map Release.videos ∧
    (releases.print l).2.map Release.versions = l.map Release.versions ∧
    (releases.print l).2.map Release.type = l.map Release.type ∧
    (releases.print l).2.map Release.printsize = l.map (fun r => some (printSizeStr r.size)) := by
  refine ⟨?_, ?_, ?_, ?_, ?_, ?_, ?_, ?_, ?_, ?_, ?_, ?_, ?_⟩ <;>
    · rw [print_snd, List.map_map]
      exact List.map_congr_left (fun r _ => rfl)

/-- C9 counterexample: the rendered line begins with the literal label
`resolution: ` after the index, which the claimed template
`<index>) <resolution padded> | languages: ...` omits. -/
theorem c9_counterexample :
    (releases.print [demoRelease]).1
      = ["1) resolution: 1080 | languages: EN | title: A | size: 1.5 | cached: RD | seeders: 12 | source: x"] ∧
    (releases.print [demoRelease]).1
      ≠ ["1) 1080 | languages: EN | title: A | size: 1.5 | cached: RD | seeders: 12 | source: x"] := by
  refine ⟨by decide, by decide⟩

/-- C9 amended: `releases.print` renders exactly one line per release, of
the form `<index>) <pad>resolution: <resolution padded> | languages:
<langs padded> | title: <title padded> | size: <size padded> | cached:
<cached padded> | seeders: <seeders padded> | source: <source>` (the size
rounded to two decimals, languages and cached slash-joined), with each
field right-padded to the maximum rendered width of its column; in
particular the title field of every line occupies the same width. -/
theorem c9_amended (l : List Release) :
    (releases.print l).1
      = (l.map withPrintsize).enum.map (fun p =>
          renderLine (longestIndex l.length)
            (longestBy (fun r => (toString r.resolution).length) (l.map withPrintsize))
            (longestBy (fun r => (joinSlash r.languages).length) (l.map withPrintsize))
            (longestBy (fun r => r.title.length) (l.map withPrintsize))
            (longestBy (fun r => (r.printsize.getD "").length) (l.map withPrintsize))
            (longestBy (fun r => (joinSlash r.cached).length) (l.map withPrintsize))
            (longestBy (fun r => (toString r.seeders).length) (l.map withPrintsize))
            p.1 p.2) ∧
    l.map (fun r => (padTo (withPrintsize r).title
        (longestBy (fun x => x.title.length) (l.map withPrintsize))).length)
      = l.map (fun _ => longestBy (fun x => x.title.length) (l.map withPrintsize)) := by
  constructor
  · simp only [releases.print, List.length_map]
  · apply List.map_congr_left
    intro r hr
    exact padTo_length _ _
      (mem_le_longestBy (fun x => x.title.length) (l.map withPrintsize) (withPrintsize r)
        (List.mem_map_of_mem withPrintsize hr))

theorem foldl_filter (fs : List (Release → Bool)) : ∀ (l : List Release),
    fs.foldl (fun acc f => acc.filter f) l = l.filter (fun r => fs.all (fun f => f r)) := by
  induction fs with
  | nil => intro l; simp
  | cons f fs ih =>
    intro l
    rw [List.foldl_cons, ih (l.filter f), List.filter_filter]
    refine List.filter_congr ?_
    intro a _
    rw [List.all_cons, Bool.and_comm]

theorem insertDesc_perm (k : Release → Int) (x : Release) :
    ∀ l, (insertDesc k x l).Perm (x :: l) := by
  intro l
  induction l with
  | nil => exact List.Perm.refl _
  | cons y ys ih =>
    rw [insertDesc]
    by_cases h : k x < k y
    · rw [if_pos h]
      exact (ih.cons y).trans (List.Perm.swap x y ys)
    · rw [if_neg h]

theorem ssortDesc_perm (k : Release → Int) : ∀ l, (ssortDesc k l).Perm l := by
  intro l
  induction l with
  | nil => exact List.Perm.refl _
  | cons x t ih =>
    exact (insertDesc_perm k x (ssortDesc k t)).trans (ih.cons x)

theorem rulesFold_perm (rules : List (Release → Int)) :
    ∀ acc, ((rules.foldl (fun a f => ssortDesc f a) acc)).Perm acc := by
  induction rules with
  | nil => intro acc; exact List.Perm.refl _
  | cons f fs ih =>
    intro acc
    exact (ih (ssortDesc f acc)).trans (ssortDesc_perm f acc)

theorem mem_insertDesc (k : Release → Int) (x z : Release) (l : List Release) :
    z ∈ insertDesc k x l ↔ z = x ∨ z ∈ l := by
  rw [(insertDesc_perm k x l).mem_iff, List.mem_cons]

theorem pairwise_insertDesc (k : Release → Int) (P : Release → Release → Prop)
    (x : Release) : ∀ (l : List Release), l.Pairwise (QbyKey k P) → (∀ y ∈ l, P x y) →
    (insertDesc k x l).Pairwise (QbyKey k P) := by
  intro l
  induction l with
  | nil => intro _ _; simp [insertDesc]
  | cons y ys ih =>
    intro hl hx
    rcases List.pairwise_cons.mp hl with ⟨hy, hys⟩
    rw [insertDesc]
    by_cases h : k x < k y
    · rw [if_pos h]
      refine List.pairwise_cons.mpr ⟨?_, ih hys (fun z hz => hx z (List.mem_cons_of_mem y hz))⟩
      intro z hz
      rcases (mem_insertDesc k x z ys).mp hz with rfl | hzys
      · exact Or.inl h
      · exact hy z hzys
    · rw [if_neg h]
      refine List.pairwise_cons.mpr ⟨?_, hl⟩
      intro z hz
      rcases List.mem_cons.mp hz with rfl | hzys
      · rcases lt_or_eq_of_le (not_lt.mp h) with hgt | heq
        · exact Or.inl hgt
        · exact Or.inr ⟨heq.symm, hx z (List.mem_cons_self z ys)⟩
      · rcases hy z hzys with hlt | ⟨heq, hP⟩
        · exact Or.inl (by omega)
        · rcases lt_or_eq_of_le (not_lt.mp h) with hgt | heq2
          · exact Or.inl (by omega)
          · exact Or.inr ⟨by omega, hx z (List.mem_cons_of_mem y hzys)⟩

theorem pairwise_ssortDesc (k : Release → Int) (P : Release → Release → Prop) :
    ∀ (l : List Release), l.Pairwise P → (ssortDesc k l).Pairwise (QbyKey k P) := by
  intro l
  induction l with
  | nil => exact fun _ => List.Pairwise.nil
  | cons x t ih =>
    intro hl
    rcases List.pairwise_cons.mp hl with ⟨hx, ht⟩
    refine pairwise_insertDesc k P x (ssortDesc k t) (ih ht) ?_
    intro y hy
    exact hx y ((ssortDesc_perm k t).mem_iff.mp hy)

theorem ruleKeys_concat (rules : List (Release → Int)) (f : Release → Int) (r : Release) :
    ruleKeys (rules ++ [f]) r = f r :: ruleKeys rules r := by
  simp [ruleKeys]

theorem pairwise_true (l : List Release) : l.Pairwise (fun _ _ => True) := by
  induction l with
  | nil => exact List.Pairwise.nil
  | cons x t ih => exact List.Pairwise.cons (fun _ _ => trivial) ih

theorem rulesFold_pairwise (rules : List (Release → Int)) :
    ∀ (base : List Release),
    base.Pairwise (fun a b => lexGe (ruleKeys [] a) (ruleKeys [] b)) →
    (rules.foldl (fun acc f => ssortDesc f acc) base).Pairwise
      (fun a b => lexGe (ruleKeys rules a) (ruleKeys rules b)) := by
  induction rules using List.reverseRecOn with
  | nil => intro base hb; exact hb
  | append_singleton rs f ih =>
    intro base hb
    rw [List.foldl_append]
    simp only [List.foldl_cons, List.foldl_nil]
    have hmid := ih base hb
    have hsorted := pairwise_ssortDesc f
      (fun a b => lexGe (ruleKeys rs a) (ruleKeys rs b)) _ hmid
    refine hsorted.imp ?_
    intro a b hab
    rw [ruleKeys_concat, ruleKeys_concat]
    exact hab

/-- C6: `releases.sort` keeps exactly the releases passing every filter
expression (as a permutation of the filtered input), and orders them so
that the later a ranking rule comes in the list, the higher its priority:
the output is pairwise ordered by the lexicographic comparison of the rule
values taken from the last rule down to the first, with the episode count
as the final tie-breaker. -/
theorem c6_rank_order (server : Server) (l : List Release) :
    (releases.sort server l).Perm (l.filter (fun r => server.FILTERS.all (fun f => f r))) ∧
    (releases.sort server l).Pairwise
      (fun a b => lexGe (ruleKeys server.RULES a) (ruleKeys server.RULES b)) := by
  have hsort : releases.sort server l
      = server.RULES.foldl (fun acc rule => ssortDesc rule acc)
          (ssortDesc (fun r => (r.episodes : Int))
            (server.FILTERS.foldl (fun acc f => acc.filter f) l)) := rfl
  constructor
  · rw [hsort, foldl_filter]
    exact (rulesFold_perm server.RULES _).trans (ssortDesc_perm _ _)
  · rw [hsort]
    refine rulesFold_pairwise server.RULES _ ?_
    have := pairwise_ssortDesc (fun r => (r.episodes : Int)) (fun _ _ => True) _
      (pairwise_true (server.FILTERS.foldl (fun acc f => acc.filter f) l))
    exact this.imp (fun hab => hab)

theorem hGet_set_self : ∀ (hp : List Release) (i : Nat) (r : Release), i < hp.length →
    hGet (hp.set i r) i = r := by
  intro hp
  induction hp with
  | nil => intro i r h; exact absurd h (Nat.not_lt_zero i)
  | cons a t ih =>
    intro i r h
    cases i with
    | zero => rfl
    | succ n => exact ih n r (Nat.lt_of_succ_lt_succ h)

theorem hGet_set_ne : ∀ (hp : List Release) (i j : Nat) (r : Release), j ≠ i →
    hGet (hp.set i r) j = hGet hp j := by
  intro hp
  induction hp with
  | nil => intro i j r _; rfl
  | cons a t ih =>
    intro i j r h
    cases i with
    | zero =>
      cases j with
      | zero => exact absurd rfl h
      | succ m => rfl
    | succ n =>
      cases j with
      | zero => rfl
      | succ m => exact ih n m r (fun hh => h (by rw [hh]))

theorem removeFirst_append (x : Version) : ∀ (p rest : List Version), (∀ w ∈ p, w ≠ x) →
    removeFirst x (p ++ x :: rest) = p ++ rest := by
  intro p
  induction p with
  | nil =>
    intro rest _
    simp [removeFirst]
  | cons w ws ih =>
    intro rest hne
    rw [List.cons_append, removeFirst, if_neg (hne w (List.mem_cons_self w ws)),
      ih rest (fun w2 hw2 => hne w2 (List.mem_cons_of_mem w hw2))]
    rfl

theorem removeVersionsPass_spec (dropV : Version → Bool) : ∀ (snap p : List Version),
    (∀ v ∈ p, dropV v = false) →
    removeVersionsPass dropV snap (p ++ snap) = p ++ snap.filter (fun v => !dropV v) := by
  intro snap
  induction snap with
  | nil =>
    intro p _
    simp [removeVersionsPass]
  | cons v rest ih =>
    intro p hP
    rw [removeVersionsPass]
    by_cases hv : dropV v = true
    · rw [if_pos hv]
      have hne : ∀ w ∈ p, w ≠ v := by
        intro w hw heq
        have h2 := hP w hw
        rw [heq, hv] at h2
        exact absurd h2 (by decide)
      rw [removeFirst_append v p rest hne, ih p hP, List.filter_cons]
      simp [hv]
    · have hv' : dropV v = false := by
        cases h : dropV v
        · rfl
        · exact absurd h hv
      rw [if_neg hv]
      rw [show p ++ v :: rest = (p ++ [v]) ++ rest by simp]
      have hP' : ∀ w ∈ p ++ [v], dropV w = false := by
        intro w hw
        rcases List.mem_append.mp hw with h1 | h2
        · exact hP w h1
        · rw [List.mem_singleton.mp h2]
          exact hv'
      rw [ih (p ++ [v]) hP', List.filter_cons]
      simp [hv']

theorem updVersions_eq_filter (dropV : Version → Bool) (r : Release) :
    updVersions dropV r = { r with versions := r.versions.filter (fun v => !dropV v) } := by
  rw [updVersions]
  rw [show removeVersionsPass dropV r.versions r.versions
        = r.versions.filter (fun v => !dropV v) by
      simpa using removeVersionsPass_spec dropV r.versions [] (by simp)]

theorem removeRef_append (hp : List Release) : ∀ (p rest : List Nat) (i : Nat),
    (∀ j ∈ p, hGet hp j ≠ hGet hp i) →
    removeRef hp (p ++ i :: rest) i = p ++ rest := by
  intro p
  induction p with
  | nil =>
    intro rest i _
    simp [removeRef]
  | cons j js ih =>
    intro rest i hne
    rw [List.cons_append, removeRef, if_neg (hne j (List.mem_cons_self j js)),
      ih rest i (fun j2 hj2 => hne j2 (List.mem_cons_of_mem j hj2))]
    rfl

theorem tagAll_length (tg : String) : ∀ (cur : List Nat) (hp : List Release),
    (tagAll tg hp cur).length = hp.length := by
  intro cur
  induction cur with
  | nil => intro hp; rfl
  | cons j rest ih =>
    intro hp
    rw [tagAll, ih, List.length_set]

theorem hGet_tagAll (tg : String) : ∀ (cur : List Nat) (hp : List Release) (i : Nat),
    (∀ j ∈ cur, j < hp.length) →
    hGet (tagAll tg hp cur) i
      = if i ∈ cur then { hGet hp i with type := some tg } else hGet hp i := by
  intro cur
  induction cur with
  | nil => intro hp i _; simp [tagAll]
  | cons j rest ih =>
    intro hp i hrange
    rw [tagAll]
    have hjlen : j < hp.length := hrange j (List.mem_cons_self j rest)
    have hrange2 : ∀ j2 ∈ rest, j2 < (hp.set j { hGet hp j with type := some tg }).length := by
      intro j2 hj2
      rw [List.length_set]
      exact hrange j2 (List.mem_cons_of_mem j hj2)
    rw [ih _ i hrange2]
    by_cases hij : i = j
    · subst hij
      rw [hGet_set_self hp i _ hjlen]
      by_cases hmem : i ∈ rest
      · rw [if_pos hmem, if_pos (List.mem_cons_self i rest)]
      · rw [if_neg hmem, if_pos (List.mem_cons_self i rest)]
    · rw [hGet_set_ne hp j i _ hij]
      by_cases hmem : i ∈ rest
      · rw [if_pos hmem, if_pos (List.mem_cons_of_mem j hmem)]
      · rw [if_neg hmem, if_neg (by
          intro hc
          rcases List.mem_cons.mp hc with h1 | h2
          · exact hij h1
          · exact hmem h2)]

theorem filterPass_spec (dropR : Release → Bool) (dropV : Version → Bool)
    (hupd : ∀ r : Release, dropR (updVersions dropV r) = dropR r) :
    ∀ (snap p : List Nat) (hp : List Release),
    (∀ j ∈ p, dropR (hGet hp j) = false) →
    (p ++ snap).Nodup →
    (∀ j ∈ p ++ snap, j < hp.length) →
    (filterPass dropR dropV snap (hp, p ++ snap)).2
        = p ++ snap.filter (fun i => !dropR (hGet hp i)) ∧
    (filterPass dropR dropV snap (hp, p ++ snap)).1.length = hp.length ∧
    ∀ i2 : Nat, hGet (filterPass dropR dropV snap (hp, p ++ snap)).1 i2
        = if i2 ∈ snap ∧ dropR (hGet hp i2) = false
          then updVersions dropV (hGet hp i2) else hGet hp i2 := by
  intro snap
  induction snap with
  | nil =>
    intro p hp hP hnd hrange
    refine ⟨by simp [filterPass], rfl, ?_⟩
    intro i2
    simp [filterPass]
  | cons i rest ih =>
    intro p hp hP hnd hrange
    have hinotp : i ∉ p := by
      rcases List.nodup_append.mp hnd with ⟨-, -, hdisj⟩
      intro hip
      exact hdisj hip (List.mem_cons_self i rest)
    have hinotrest : i ∉ rest := by
      rcases List.nodup_append.mp hnd with ⟨-, hcons, -⟩
      exact (List.nodup_cons.mp hcons).1
    by_cases hdrop : dropR (hGet hp i) = true
    · have hne : ∀ j ∈ p, hGet hp j ≠ hGet hp i := by
        intro j hj heq
        have h2 := hP j hj
        rw [heq, hdrop] at h2
        exact absurd h2 (by decide)
      have hstep : filterPass dropR dropV (i :: rest) (hp, p ++ i :: rest)
          = filterPass dropR dropV rest (hp, p ++ rest) := by
        simp only [filterPass]
        rw [if_pos hdrop, removeRef_append hp p rest i hne]
      have hndrest : (p ++ rest).Nodup := by
        rcases List.nodup_append.mp hnd with ⟨h1, hcons, hdisj⟩
        exact List.nodup_append.mpr ⟨h1, (List.nodup_cons.mp hcons).2,
          fun a ha1 ha2 => hdisj ha1 (List.mem_cons_of_mem i ha2)⟩
      have hrangerest : ∀ j ∈ p ++ rest, j < hp.length := by
        intro j hj
        rcases List.mem_append.mp hj with h1 | h2
        · exact hrange j (List.mem_append.mpr (Or.inl h1))
        · exact hrange j (List.mem_append.mpr (Or.inr (List.mem_cons_of_mem i h2)))
      obtain ⟨ih1, ih2, ih3⟩ := ih p hp hP hndrest hrangerest
      rw [hstep]
      refine ⟨?_, ih2, ?_⟩
      · rw [ih1, List.filter_cons]
        simp [hdrop]
      · intro i2
        rw [ih3 i2]
        by_cases hii : i2 = i
        · subst hii
          rw [if_neg (fun hc => hinotrest hc.1), if_neg (by
            intro hc
            rw [hdrop] at hc
            exact absurd hc.2 (by decide))]
        · have hmemiff : i2 ∈ rest ↔ i2 ∈ i :: rest :=
            ⟨List.mem_cons_of_mem i, fun hc => by
              rcases List.mem_cons.mp hc with h1 | h2
              · exact absurd h1 hii
              · exact h2⟩
          by_cases hc : i2 ∈ rest ∧ dropR (hGet hp i2) = false
          · rw [if_pos hc, if_pos ⟨hmemiff.mp hc.1, hc.2⟩]
          · rw [if_neg hc, if_neg (fun hc2 => hc ⟨hmemiff.mpr hc2.1, hc2.2⟩)]
    · have hkeep : dropR (hGet hp i) = false := by
        cases h : dropR (hGet hp i)
        · rfl
        · exact absurd h hdrop
      have hilen : i < hp.length :=
        hrange i (List.mem_append.mpr (Or.inr (List.mem_cons_self i rest)))
      have hstep : filterPass dropR dropV (i :: rest) (hp, p ++ i :: rest)
          = filterPass dropR dropV rest
              (hp.set i (updVersions dropV (hGet hp i)), (p ++ [i]) ++ rest) := by
        simp only [filterPass]
        rw [if_neg hdrop]
        rw [show (p ++ [i]) ++ rest = p ++ i :: rest by simp]
      have hget2 : ∀ j2, j2 ≠ i →
          hGet (hp.set i (updVersions dropV (hGet hp i))) j2 = hGet hp j2 :=
        fun j2 hj2 => hGet_set_ne hp i j2 _ hj2
      have hget2i : hGet (hp.set i (updVersions dropV (hGet hp i))) i
          = updVersions dropV (hGet hp i) := hGet_set_self hp i _ hilen
      have hP2 : ∀ j ∈ p ++ [i],
          dropR (hGet (hp.set i (updVersions dropV (hGet hp i))) j) = false := by
        intro j hj
        rcases List.mem_append.mp hj with h1 | h2
        · have hji : j ≠ i := fun hh => hinotp (hh ▸ h1)
          rw [hget2 j hji]
          exact hP j h1
        · rw [List.mem_singleton.mp h2, hget2i, hupd]
          exact hkeep
      have hnd2 : ((p ++ [i]) ++ rest).Nodup := by
        rw [List.append_assoc]
        exact hnd
      have hrange2 : ∀ j ∈ (p ++ [i]) ++ rest,
          j < (hp.set i (updVersions dropV (hGet hp i))).length := by
        intro j hj
        rw [List.length_set]
        apply hrange
        rw [List.append_assoc] at hj
        exact hj
      obtain ⟨ih1, ih2, ih3⟩ := ih (p ++ [i]) (hp.set i (updVersions dropV (hGet hp i)))
        hP2 hnd2 hrange2
      rw [hstep]
      refine ⟨?_, by rw [ih2, List.length_set], ?_⟩
      · rw [ih1, List.filter_cons]
        simp only [hkeep, Bool.not_false, if_pos]
        rw [show rest.filter (fun j => !dropR (hGet (hp.set i (updVersions dropV (hGet hp i))) j))
              = rest.filter (fun j => !dropR (hGet hp j)) from
            List.filter_congr (fun j hj => by
              rw [hget2 j (fun hh => hinotrest (hh ▸ hj))])]
        simp
      · intro i2
        rw [ih3 i2]
        by_cases hii : i2 = i
        · subst hii
          rw [if_neg (fun hc => hinotrest hc.1), hget2i,
            if_pos ⟨List.mem_cons_self i2 rest, hkeep⟩]
        · rw [hget2 i2 hii]
          have hmemiff : i2 ∈ rest ↔ i2 ∈ i :: rest :=
            ⟨List.mem_cons_of_mem i, fun hc => by
              rcases List.mem_cons.mp hc with h1 | h2
              · exact absurd h1 hii
              · exact h2⟩
          by_cases hc : i2 ∈ rest ∧ dropR (hGet hp i2) = false
          · rw [if_pos hc, if_pos ⟨hmemiff.mp hc.1, hc.2⟩]
          · rw [if_neg hc, if_neg (fun hc2 => hc ⟨hmemiff.mpr hc2.1, hc2.2⟩)]

theorem updVersions_type_update (dropV : Version → Bool) (r : Release) (tg : String) :
    updVersions dropV { r with type := some tg }
      = { updVersions dropV r with type := some tg } := rfl

theorem type_update_collapse (r : Release) (tg : String) :
    ({ ({ r with type := some tg } : Release) with type := some tg } : Release)
      = { r with type := some tg } := rfl

theorem filterPass4_spec (dropR : Release → Bool) (dropV : Version → Bool)
    (hupd : ∀ r : Release, dropR (updVersions dropV r) = dropR r)
    (htag : ∀ r : Release, dropR { r with type := some "show" } = dropR r) :
    ∀ (snap p : List Nat) (hp : List Release),
    (∀ j ∈ p, dropR (hGet hp j) = false) →
    (p ++ snap).Nodup →
    (∀ j ∈ p ++ snap, j < hp.length) →
    (filterPass4 dropR dropV snap (hp, p ++ snap)).2
        = p ++ snap.filter (fun i => !dropR (hGet hp i)) ∧
    (filterPass4 dropR dropV snap (hp, p ++ snap)).1.length = hp.length ∧
    ∀ j ∈ (filterPass4 dropR dropV snap (hp, p ++ snap)).2,
      hGet (filterPass4 dropR dropV snap (hp, p ++ snap)).1 j
        = if ∃ k ∈ snap, dropR (hGet hp k) = false then
            (if j ∈ snap
             then { updVersions dropV (hGet hp j) with type := some "show" }
             else { hGet hp j with type := some "show" })
          else hGet hp j := by
  intro snap
  induction snap with
  | nil =>
    intro p hp hP hnd hrange
    refine ⟨by simp [filterPass4], rfl, ?_⟩
    intro j hj
    simp [filterPass4]
  | cons i rest ih =>
    intro p hp hP hnd hrange
    have hinotp : i ∉ p := by
      rcases List.nodup_append.mp hnd with ⟨-, -, hdisj⟩
      intro hip
      exact hdisj hip (List.mem_cons_self i rest)
    have hinotrest : i ∉ rest := by
      rcases List.nodup_append.mp hnd with ⟨-, hcons, -⟩
      exact (List.nodup_cons.mp hcons).1
    have hdisjp : ∀ j ∈ p, j ∉ i :: rest := by
      rcases List.nodup_append.mp hnd with ⟨-, -, hdisj⟩
      exact fun j hj hc => hdisj hj hc
    by_cases hdrop : dropR (hGet hp i) = true
    · have hne : ∀ j ∈ p, hGet hp j ≠ hGet hp i := by
        intro j hj heq
        have h2 := hP j hj
        rw [heq, hdrop] at h2
        exact absurd h2 (by decide)
      have hstep : filterPass4 dropR dropV (i :: rest) (hp, p ++ i :: rest)
          = filterPass4 dropR dropV rest (hp, p ++ rest) := by
        simp only [filterPass4]
        rw [if_pos hdrop, removeRef_append hp p rest i hne]
      have hndrest : (p ++ rest).Nodup := by
        rcases List.nodup_append.mp hnd with ⟨h1, hcons, hdisj⟩
        exact List.nodup_append.mpr ⟨h1, (List.nodup_cons.mp hcons).2,
          fun a ha1 ha2 => hdisj ha1 (List.mem_cons_of_mem i ha2)⟩
      have hrangerest : ∀ j ∈ p ++ rest, j < hp.length := by
        intro j hj
        rcases List.mem_append.mp hj with h1 | h2
        · exact hrange j (List.mem_append.mpr (Or.inl h1))
        · exact hrange j (List.mem_append.mpr (Or.inr (List.mem_cons_of_mem i h2)))
      obtain ⟨ih1, ih2, ih3⟩ := ih p hp hP hndrest hrangerest
      rw [hstep]
      have hexiff : (∃ k ∈ i :: rest, dropR (hGet hp k) = false)
          ↔ (∃ k ∈ rest, dropR (hGet hp k) = false) := by
        constructor
        · rintro ⟨k, hk, hkd⟩
          rcases List.mem_cons.mp hk with rfl | hk2
          · rw [hdrop] at hkd
            exact absurd hkd (by decide)
          · exact ⟨k, hk2, hkd⟩
        · rintro ⟨k, hk, hkd⟩
          exact ⟨k, List.mem_cons_of_mem i hk, hkd⟩
      refine ⟨?_, ih2, ?_⟩
      · rw [ih1, List.filter_cons]
        simp [hdrop]
      · intro j hj
        have hjmem : j ∈ p ++ rest := by
          rw [ih1] at hj
          rcases List.mem_append.mp hj with h1 | h2
          · exact List.mem_append.mpr (Or.inl h1)
          · exact List.mem_append.mpr (Or.inr (List.mem_filter.mp h2).1)
        have hji : j ≠ i := by
          intro hh
          subst hh
          rcases List.mem_append.mp hjmem with h1 | h2
          · exact hinotp h1
          · exact hinotrest h2
        rw [ih3 j hj]
        have hmemiff : j ∈ rest ↔ j ∈ i :: rest :=
          ⟨List.mem_cons_of_mem i, fun hc => by
            rcases List.mem_cons.mp hc with h1 | h2
            · exact absurd h1 hji
            · exact h2⟩
        by_cases hex : ∃ k ∈ rest, dropR (hGet hp k) = false
        · rw [if_pos hex, if_pos (hexiff.mpr hex)]
          by_cases hjr : j ∈ rest
          · rw [if_pos hjr, if_pos (hmemiff.mp hjr)]
          · rw [if_neg hjr, if_neg (fun hc => hjr (hmemiff.mpr hc))]
        · rw [if_neg hex, if_neg (fun hc => hex (hexiff.mp hc))]
    · have hkeep : dropR (hGet hp i) = false := by
        cases h : dropR (hGet hp i)
        · rfl
        · exact absurd h hdrop
      have hilen : i < hp.length :=
        hrange i (List.mem_append.mpr (Or.inr (List.mem_cons_self i rest)))
      have hstep : filterPass4 dropR dropV (i :: rest) (hp, p ++ i :: rest)
          = filterPass4 dropR dropV rest
              (tagAll "show" (hp.set i (updVersions dropV (hGet hp i))) (p ++ i :: rest),
               (p ++ [i]) ++ rest) := by
        simp only [filterPass4]
        rw [if_neg hdrop]
        rw [show (p ++ [i]) ++ rest = p ++ i :: rest by simp]
      have hrange1 : ∀ k ∈ p ++ i :: rest,
          k < (hp.set i (updVersions dropV (hGet hp i))).length := by
        intro k hk
        rw [List.length_set]
        exact hrange k hk
      have hget2 : ∀ j2 ∈ p ++ i :: rest, j2 ≠ i →
          hGet (tagAll "show" (hp.set i (updVersions dropV (hGet hp i))) (p ++ i :: rest)) j2
            = { hGet hp j2 with type := some "show" } := by
        intro j2 hj2 hne
        rw [hGet_tagAll "show" (p ++ i :: rest) _ j2 hrange1, if_pos hj2,
          hGet_set_ne hp i j2 _ hne]
      have hget2i :
          hGet (tagAll "show" (hp.set i (updVersions dropV (hGet hp i))) (p ++ i :: rest)) i
            = { updVersions dropV (hGet hp i) with type := some "show" } := by
        rw [hGet_tagAll "show" (p ++ i :: rest) _ i hrange1,
          if_pos (List.mem_append.mpr (Or.inr (List.mem_cons_self i rest))),
          hGet_set_self hp i _ hilen]
      have hdropeq : ∀ j2 ∈ p ++ i :: rest,
          dropR (hGet (tagAll "show" (hp.set i (updVersions dropV (hGet hp i)))
            (p ++ i :: rest)) j2) = dropR (hGet hp j2) := by
        intro j2 hj2
        by_cases hne : j2 = i
        · subst hne
          rw [hget2i, htag, hupd]
        · rw [hget2 j2 hj2 hne, htag]
      have hP2 : ∀ j ∈ p ++ [i],
          dropR (hGet (tagAll "show" (hp.set i (updVersions dropV (hGet hp i)))
            (p ++ i :: rest)) j) = false := by
        intro j hj
        rcases List.mem_append.mp hj with h1 | h2
        · rw [hdropeq j (List.mem_append.mpr (Or.inl h1))]
          exact hP j h1
        · rw [List.mem_singleton.mp h2]
          rw [hdropeq i (List.mem_append.mpr (Or.inr (List.mem_cons_self i rest)))]
          exact hkeep
      have hnd2 : ((p ++ [i]) ++ rest).Nodup := by
        rw [List.append_assoc]
        exact hnd
      have hrange2 : ∀ j ∈ (p ++ [i]) ++ rest,
          j < (tagAll "show" (hp.set i (updVersions dropV (hGet hp i)))
            (p ++ i :: rest)).length := by
        intro j hj
        rw [tagAll_length, List.length_set]
        apply hrange
        rw [List.append_assoc] at hj
        exact hj
      obtain ⟨ih1, ih2, ih3⟩ := ih (p ++ [i])
        (tagAll "show" (hp.set i (updVersions dropV (hGet hp i))) (p ++ i :: rest))
        hP2 hnd2 hrange2
      have hrestdropeq : ∀ j2 ∈ rest,
          dropR (hGet (tagAll "show" (hp.set i (updVersions dropV (hGet hp i)))
            (p ++ i :: rest)) j2) = dropR (hGet hp j2) := by
        intro j2 hj2
        exact hdropeq j2 (List.mem_append.mpr (Or.inr (List.mem_cons_of_mem i hj2)))
      have hfiltereq : rest.filter (fun j =>
            !dropR (hGet (tagAll "show" (hp.set i (updVersions dropV (hGet hp i)))
              (p ++ i :: rest)) j))
          = rest.filter (fun j => !dropR (hGet hp j)) :=
        List.filter_congr (fun j hj => by rw [hrestdropeq j hj])
      rw [hstep]
      have hres2 : (filterPass4 dropR dropV rest
            (tagAll "show" (hp.set i (updVersions dropV (hGet hp i))) (p ++ i :: rest),
             (p ++ [i]) ++ rest)).2
          = p ++ (i :: rest).filter (fun k => !dropR (hGet hp k)) := by
        rw [ih1, hfiltereq, List.filter_cons]
        simp only [hkeep, Bool.not_false, if_pos]
        simp
      refine ⟨hres2, by rw [ih2, tagAll_length, List.length_set], ?_⟩
      intro j hj
      have hextrue : ∃ k ∈ i :: rest, dropR (hGet hp k) = false :=
        ⟨i, List.mem_cons_self i rest, hkeep⟩
      rw [if_pos hextrue]
      have hjmem : j ∈ p ∨ j = i ∨ (j ∈ rest ∧ dropR (hGet hp j) = false) := by
        rw [hres2] at hj
        rcases List.mem_append.mp hj with h1 | h2
        · exact Or.inl h1
        · have hmf := List.mem_filter.mp h2
          rcases List.mem_cons.mp hmf.1 with h3 | h4
          · exact Or.inr (Or.inl h3)
          · refine Or.inr (Or.inr ⟨h4, ?_⟩)
            have h5 := hmf.2
            cases h6 : dropR (hGet hp j)
            · rfl
            · rw [h6] at h5
              exact absurd h5 (by decide)
      rw [ih3 j hj]
      rcases hjmem with hjp | hji | hjrk
      · have hjnotir : j ∉ i :: rest := hdisjp j hjp
        have hjnotrest : j ∉ rest := fun hc => hjnotir (List.mem_cons_of_mem i hc)
        have hji2 : j ≠ i := fun hh => hjnotir (hh ▸ List.mem_cons_self i rest)
        have hbase := hget2 j (List.mem_append.mpr (Or.inl hjp)) hji2
        rw [if_neg hjnotir]
        by_cases hex : ∃ k ∈ rest,
            dropR (hGet (tagAll "show" (hp.set i (updVersions dropV (hGet hp i)))
              (p ++ i :: rest)) k) = false
        · rw [if_pos hex, if_neg hjnotrest, hbase, type_update_collapse]
        · rw [if_neg hex, hbase]
      · subst hji
        rw [if_pos (List.mem_cons_self j rest)]
        by_cases hex : ∃ k ∈ rest,
            dropR (hGet (tagAll "show" (hp.set j (updVersions dropV (hGet hp j)))
              (p ++ j :: rest)) k) = false
        · rw [if_pos hex, if_neg hinotrest, hget2i, type_update_collapse]
        · rw [if_neg hex, hget2i]
      · obtain ⟨hjr, hjkeep⟩ := hjrk
        have hex : ∃ k ∈ rest,
            dropR (hGet (tagAll "show" (hp.set i (updVersions dropV (hGet hp i)))
              (p ++ i :: rest)) k) = false :=
          ⟨j, hjr, by rw [hrestdropeq j hjr]; exact hjkeep⟩
        have hji2 : j ≠ i := fun hh => hinotrest (hh ▸ hjr)
        have hbase := hget2 j
          (List.mem_append.mpr (Or.inr (List.mem_cons_of_mem i hjr))) hji2
        rw [if_pos (List.mem_cons_of_mem i hjr), if_pos hex, if_pos hjr, hbase,
          updVersions_type_update, type_update_collapse]

theorem type_filter_multi (hp : List Release) (l : List Nat) (ty : String) (s : List Nat)
    (e : Option Nat) (hty : ty ≠ "movie") (hs : 1 < s.length) :
    releases.type_filter hp l ty s e
      = (tagAll "show" (filterPass (dropRMulti s) (dropVMulti s) l (hp, l)).1
           (filterPass (dropRMulti s) (dropVMulti s) l (hp, l)).2,
         (filterPass (dropRMulti s) (dropVMulti s) l (hp, l)).2) := by
  rw [releases.type_filter, if_neg (by simp [hty]), if_pos hs]

theorem type_filter_se (hp : List Release) (l : List Nat) (ty : String) (s0 : Nat)
    (e : Option Nat) (hty : ty ≠ "movie") (he : isFalsyE e = false) :
    releases.type_filter hp l ty [s0] e
      = filterPass4 (dropRSE [s0]) (dropVSE [s0]) l (hp, l) := by
  rw [releases.type_filter, if_neg (by simp [hty]), if_neg (by simp),
    if_neg (by rw [he]; exact (by decide))]

/-- C3: with more than one requested season, a release is dropped exactly
when the number of requested seasons missing from it exceeds half the
number of requested seasons or its episode count is at most 1; the
identical test is applied to each version, removing only the version, and
every surviving release is tagged `show`. -/
theorem c3_multi_season (hp : List Release) (l : List Nat) (ty : String) (s : List Nat)
    (e : Option Nat)
    (hty : ty ≠ "movie") (hs : 1 < s.length) (hsnd : s.Nodup) (hnd : l.Nodup)
    (hrange : ∀ i ∈ l, i < hp.length) :
    (releases.type_filter hp l ty s e).2
      = l.filter (fun i =>
          !(decide (((s.toFinset \ (hGet hp i).seasons.toFinset).card : ℚ)
              > (s.toFinset.card : ℚ) / 2) || decide ((hGet hp i).episodes ≤ 1))) ∧
    ∀ i ∈ (releases.type_filter hp l ty s e).2,
      hGet (releases.type_filter hp l ty s e).1 i
        = { hGet hp i with
            versions := (hGet hp i).versions.filter (fun v =>
              !(decide (((s.toFinset \ v.seasons.toFinset).card : ℚ)
                  > (s.toFinset.card : ℚ) / 2) || decide (v.episodes ≤ 1))),
            type := some "show" } := by
  have hcard : s.toFinset.card = s.length := List.toFinset_card_of_nodup hsnd
  rw [hcard, type_filter_multi hp l ty s e hty hs]
  obtain ⟨h1, h2, h3⟩ := filterPass_spec (dropRMulti s) (dropVMulti s) (fun r => rfl)
    l [] hp (by simp) (by simpa using hnd) (by simpa using hrange)
  simp only [List.nil_append] at h1 h2 h3
  constructor
  · exact h1
  · intro i hi
    have hi2 := hi
    rw [h1] at hi2
    have himem := List.mem_filter.mp hi2
    have hkept : dropRMulti s (hGet hp i) = false := by
      cases h : dropRMulti s (hGet hp i)
      · rfl
      · rw [h] at himem
        exact absurd himem.2 (by decide)
    have hrangest : ∀ j ∈ (filterPass (dropRMulti s) (dropVMulti s) l (hp, l)).2,
        j < (filterPass (dropRMulti s) (dropVMulti s) l (hp, l)).1.length := by
      intro j hj
      rw [h1] at hj
      rw [h2]
      exact hrange j (List.mem_filter.mp hj).1
    rw [hGet_tagAll "show" _ _ i hrangest, if_pos hi, h3 i,
      if_pos ⟨himem.1, hkept⟩, updVersions_eq_filter]
    rfl

/-- C3 witness: requested seasons `{1,2,3,4}`; the release with seasons
`{1,2}` is kept (missing 2 of 4), the one with seasons `{1}` is dropped
(missing 3 of 4), and the survivor is tagged and has its version with too
many missing seasons removed. -/
theorem c3_witness :
    (("show" : String) ≠ "movie" ∧ 1 < ([1, 2, 3, 4] : List Nat).length ∧
      ([1, 2, 3, 4] : List Nat).Nodup ∧ ([0, 1] : List Nat).Nodup ∧
      (∀ i ∈ ([0, 1] : List Nat), i < ([relMultiKeep, relMultiDrop] : List Release).length)) ∧
    ((releases.type_filter [relMultiKeep, relMultiDrop] [0, 1] "show" [1, 2, 3, 4] none).2
        = [0, 1].filter (fun i =>
            !(decide (((([1, 2, 3, 4] : List Nat).toFinset
                  \ (hGet [relMultiKeep, relMultiDrop] i).seasons.toFinset).card : ℚ)
                > ((([1, 2, 3, 4] : List Nat).toFinset.card : ℚ)) / 2)
              || decide ((hGet [relMultiKeep, relMultiDrop] i).episodes ≤ 1))) ∧
      ∀ i ∈ (releases.type_filter [relMultiKeep, relMultiDrop] [0, 1] "show" [1, 2, 3, 4] none).2,
        hGet (releases.type_filter [relMultiKeep, relMultiDrop] [0, 1] "show" [1, 2, 3, 4] none).1 i
          = { hGet [relMultiKeep, relMultiDrop] i with
              versions := (hGet [relMultiKeep, relMultiDrop] i).versions.filter (fun v =>
                !(decide (((([1, 2, 3, 4] : List Nat).toFinset \ v.seasons.toFinset).card : ℚ)
                    > ((([1, 2, 3, 4] : List Nat).toFinset.card : ℚ)) / 2)
                  || decide (v.episodes ≤ 1))),
              type := some "show" }) :=
  ⟨⟨by decide, by decide, by decide, by decide, by decide⟩,
   c3_multi_season [relMultiKeep, relMultiDrop] [0, 1] "show" [1, 2, 3, 4] none
     (by decide) (by decide) (by decide) (by decide) (by decide)⟩

theorem not_dropRSE (s0 : Nat) (r : Release) :
    (!dropRSE [s0] r) = (decide (s0 ∈ r.seasons) && decide (r.episodes = 1)) := by
  rw [dropRSE, Bool.not_or, ← decide_not, ← decide_not]
  congr 1
  · refine decide_eq_decide.mpr ?_
    rw [not_not, Finset.sdiff_eq_empty_iff_subset,
      show ([s0] : List Nat).toFinset = {s0} by simp,
      Finset.singleton_subset_iff, List.mem_toFinset]
  · exact decide_eq_decide.mpr not_not

theorem not_dropVSE (s0 : Nat) (v : Version) :
    (!dropVSE [s0] v) = (decide (s0 ∈ v.seasons) && decide (v.episodes = 1)) := by
  rw [dropVSE, Bool.not_or, ← decide_not, ← decide_not]
  congr 1
  · refine decide_eq_decide.mpr ?_
    rw [not_not, Finset.sdiff_eq_empty_iff_subset,
      show ([s0] : List Nat).toFinset = {s0} by simp,
      Finset.singleton_subset_iff, List.mem_toFinset]
  · exact decide_eq_decide.mpr not_not

/-- C2 counterexample: for the single-episode request `s = {1}`, `e = 2`,
a release whose seasons set `{1,2}` has the element 2 outside `{1}` and
whose episode count is 1 must be removed according to the claim, yet
`type_filter` keeps it: the code drops a release when the requested set
minus the release seasons is nonempty, which is the reverse inclusion. -/
theorem c2_counterexample :
    (¬ (relC2.seasons.toFinset ⊆ ({1} : Finset Nat))) ∧ relC2.episodes = 1 ∧
    (releases.type_filter [relC2] [0] "show" [1] (some 2)).2 = [0] :=
  ⟨by decide, rfl, by decide⟩

/-- C2 amended: for a single-episode request with season `s0` and a truthy
episode, `type_filter` keeps a release iff its episode count equals 1 and
the requested season `s0` is among its seasons (requested set contained in
the release seasons); the identical test is applied to each version,
removing only the version, and every surviving release is tagged `show`. -/
theorem c2_amended (hp : List Release) (l : List Nat) (ty : String) (s0 : Nat)
    (e : Option Nat)
    (hty : ty ≠ "movie") (he : isFalsyE e = false) (hnd : l.Nodup)
    (hrange : ∀ i ∈ l, i < hp.length) :
    (releases.type_filter hp l ty [s0] e).2
      = l.filter (fun i =>
          decide (s0 ∈ (hGet hp i).seasons) && decide ((hGet hp i).episodes = 1)) ∧
    ∀ i ∈ (releases.type_filter hp l ty [s0] e).2,
      hGet (releases.type_filter hp l ty [s0] e).1 i
        = { hGet hp i with
            versions := (hGet hp i).versions.filter (fun v =>
              decide (s0 ∈ v.seasons) && decide (v.episodes = 1)),
            type := some "show" } := by
  rw [type_filter_se hp l ty s0 e hty he]
  obtain ⟨h1, h2, h3⟩ := filterPass4_spec (dropRSE [s0]) (dropVSE [s0])
    (fun r => rfl) (fun r => rfl)
    l [] hp (by simp) (by simpa using hnd) (by simpa using hrange)
  simp only [List.nil_append] at h1 h2 h3
  constructor
  · rw [h1]
    exact List.filter_congr (fun i _ => not_dropRSE s0 (hGet hp i))
  · intro i hi
    have hi2 := hi
    rw [h1] at hi2
    have himem := List.mem_filter.mp hi2
    have hkept : dropRSE [s0] (hGet hp i) = false := by
      cases h : dropRSE [s0] (hGet hp i)
      · rfl
      · rw [h] at himem
        exact absurd himem.2 (by decide)
    rw [h3 i hi, if_pos ⟨i, himem.1, hkept⟩, if_pos himem.1, updVersions_eq_filter]
    rw [show (hGet hp i).versions.filter (fun v => !dropVSE [s0] v)
          = (hGet hp i).versions.filter (fun v =>
              decide (s0 ∈ v.seasons) && decide (v.episodes = 1)) from
        List.filter_congr (fun v _ => not_dropVSE s0 v)]

/-- C2 amended witness: request season 3, episode 4; the release carrying
season 3 with one episode survives, tagged `show`, with its seasonless
version removed; the seasonless release is dropped. -/
theorem c2_witness :
    (("show" : String) ≠ "movie" ∧ isFalsyE (some 4) = false ∧
      ([0, 1] : List Nat).Nodup ∧
      (∀ i ∈ ([0, 1] : List Nat), i < ([relSEKeep, relSEDrop] : List Release).length)) ∧
    ((releases.type_filter [relSEKeep, relSEDrop] [0, 1] "show" [3] (some 4)).2
        = [0, 1].filter (fun i =>
            decide (3 ∈ (hGet [relSEKeep, relSEDrop] i).seasons)
              && decide ((hGet [relSEKeep, relSEDrop] i).episodes = 1)) ∧
      ∀ i ∈ (releases.type_filter [relSEKeep, relSEDrop] [0, 1] "show" [3] (some 4)).2,
        hGet (releases.type_filter [relSEKeep, relSEDrop] [0, 1] "show" [3] (some 4)).1 i
          = { hGet [relSEKeep, relSEDrop] i with
              versions := (hGet [relSEKeep, relSEDrop] i).versions.filter (fun v =>
                decide (3 ∈ v.seasons) && decide (v.episodes = 1)),
              type := some "show" }) :=
  ⟨⟨by decide, by decide, by decide, by decide⟩,
   c2_amended [relSEKeep, relSEDrop] [0, 1] "show" 3 (some 4)
     (by decide) (by decide) (by decide) (by decide)⟩

/-- C10: in the single-episode branch the tagging loop runs inside the
per-release iteration, so on this input the second release is first tagged
`show` (by the tagging pass that follows the first, surviving release) and
only afterwards removed: the returned list no longer contains it, but the
object a caller still references carries `type = "show"`. -/
theorem c10_tag_leak :
    (releases.type_filter [relTagA, relTagB] [0, 1] "show" [3] (some 4)).2 = [0] ∧
    (hGet (releases.type_filter [relTagA, relTagB] [0, 1] "show" [3] (some 4)).1 1).type
      = some "show" := by
  decide
